/-
Verification of the Mancala engine (engine.js) and the front-end move
evaluator (MancalaGame.evaluateMove / chooseBestAIMove) against the
natural-language specification.

The board is a list of 14 natural numbers (slots 0-13); players are 0
(human, pits 0-5, store 6) and 1 (AI, pits 7-12, store 13).  JavaScript
exceptions are modelled by `Except String` results paired with the
(unchanged) engine state; helper loops are translated with an explicit
iteration count so that every definition is structurally recursive.
Rational numbers stand in for JavaScript's floating-point scores.
-/
import Mathlib

namespace Mancala

/-! ### Data model -/

/-- One side's slot range: first pit, last pit, and store index
(`PIT_RANGE` entries in engine.js; `end` is renamed `stop`). -/
structure PitRange where
  start : ℕ
  stop : ℕ
  store : ℕ
deriving DecidableEq

/-- Result of `getScores`: `{human: board[6], ai: board[13]}`. -/
structure Scores where
  human : ℕ
  ai : ℕ
deriving DecidableEq

/-- The object returned by `tryCapture` on success. -/
structure Capture where
  pit : ℕ
  opposite : ℕ
  store : ℕ
  captured : ℕ
deriving DecidableEq

/-- The object returned by `collectRemainingStones`. -/
structure Sweep where
  humanRemaining : ℕ
  aiRemaining : ℕ
  board : List ℕ
  scores : Scores
deriving DecidableEq

/-- The move summary built by `applyMove`. -/
structure MoveSummary where
  player : ℕ
  pitIndex : ℕ
  stonesPicked : ℕ
  sequence : List ℕ
  lastPosition : ℕ
  landedInStore : Bool
  capture : Option Capture
  sweep : Option Sweep
  extraTurn : Bool
  board : List ℕ
  currentPlayer : ℕ
  gameOver : Bool
  scores : Scores
deriving DecidableEq

/-- The mutable fields of a `MancalaEngine` instance. -/
structure EngineState where
  initialBoard : List ℕ
  initialPlayer : ℕ
  board : List ℕ
  currentPlayer : ℕ
  gameOver : Bool
deriving DecidableEq

/-- `INITIAL_BOARD` from engine.js. -/
def INITIAL_BOARD : List ℕ := [4, 4, 4, 4, 4, 4, 0, 4, 4, 4, 4, 4, 4, 0]

/-- The `PIT_RANGE` lookup table: defined only for players 0 and 1
(indexing with any other key yields `undefined` in JavaScript). -/
def PIT_RANGE (player : ℕ) : Option PitRange :=
  if player = 0 then some ⟨0, 5, 6⟩
  else if player = 1 then some ⟨7, 12, 13⟩
  else none

/-- Total version of the range lookup, used on code paths that are only
reached once the player has been validated to be 0 or 1 (for such
players it agrees with `PIT_RANGE`). -/
def pitRange (player : ℕ) : PitRange :=
  if player = 0 then ⟨0, 5, 6⟩ else ⟨7, 12, 13⟩

/-! ### Engine operations -/

/-- `reset(board?, currentPlayer?)` from engine.js.  An absent argument
is modelled by `none`. -/
def reset (st : EngineState) (board : Option (List ℕ)) (currentPlayer : Option ℕ) :
    EngineState :=
  let hasCustomBoard := board.isSome
  let sourceBoard := match board with
    | some b => b
    | none => st.initialBoard
  let initialBoard := match board with
    | some b => b
    | none => st.initialBoard
  let nextPlayer := match currentPlayer with
    | some p => p
    | none => if hasCustomBoard then 0 else st.initialPlayer
  { initialBoard := initialBoard
    initialPlayer := nextPlayer
    board := sourceBoard
    currentPlayer := nextPlayer
    gameOver := false }

/-- The constructor `new MancalaEngine(board, currentPlayer = 0)`. -/
def mkEngine (board : Option (List ℕ)) (currentPlayer : ℕ) : EngineState :=
  let initialBoard := board.getD INITIAL_BOARD
  reset ⟨initialBoard, currentPlayer, initialBoard, currentPlayer, false⟩
    (some initialBoard) (some currentPlayer)

/-- `clone()` from engine.js. -/
def clone (st : EngineState) : EngineState :=
  { mkEngine (some st.board) st.currentPlayer with gameOver := st.gameOver }

/-- `getScores()` from engine.js (as a function of the board). -/
def getScores (board : List ℕ) : Scores :=
  { human := board.getD 6 0, ai := board.getD 13 0 }

/-- The pit-scanning loop of `getValidMoves`, iterating `n` slots
starting at `pit`. -/
def validMovesAux : List ℕ → ℕ → ℕ → List ℕ
  | _, _, 0 => []
  | board, pit, n + 1 =>
      (if 0 < board.getD pit 0 then [pit] else []) ++ validMovesAux board (pit + 1) n

/-- `getValidMoves(player)` from engine.js. -/
def getValidMoves (st : EngineState) (player : ℕ) : List ℕ :=
  if st.gameOver then []
  else
    let range := pitRange player
    validMovesAux st.board range.start (range.stop + 1 - range.start)

/-- `isValidMove(pitIndex, player)` from engine.js. -/
def isValidMove (st : EngineState) (pitIndex : ℕ) (player : ℕ) : Bool :=
  if st.gameOver then false
  else
    match PIT_RANGE player with
    | none => false
    | some range =>
        decide (range.start ≤ pitIndex) && decide (pitIndex ≤ range.stop) &&
          decide (0 < st.board.getD pitIndex 0)

/-- `shouldSkipPosition(position, player)` from engine.js. -/
def shouldSkipPosition (position : ℕ) (player : ℕ) : Bool :=
  (player == 0 && position == 13) || (player == 1 && position == 6)

/-- `isOwnStore(position, player)` from engine.js. -/
def isOwnStore (position : ℕ) (player : ℕ) : Bool :=
  position == (pitRange player).store

/-- `isOwnSide(position, player)` from engine.js. -/
def isOwnSide (position : ℕ) (player : ℕ) : Bool :=
  decide ((pitRange player).start ≤ position) && decide (position ≤ (pitRange player).stop)

/-- One advance of the sowing walk: step to the next slot modulo 14 and,
if that slot is the opponent's store, step once more (the skip slot is
unique, so at most one skip happens per advance). -/
def sowStep (player : ℕ) (position : ℕ) : ℕ :=
  let next := (position + 1) % 14
  if shouldSkipPosition next player then (next + 1) % 14 else next

/-- The sowing `while (stones > 0)` loop of `applyMove`: returns the
sequence of slots stones were dropped into, the final position, and the
resulting board. -/
def sow (player : ℕ) : ℕ → ℕ → List ℕ → List ℕ × ℕ × List ℕ
  | 0, position, board => ([], position, board)
  | stones + 1, position, board =>
      let next := sowStep player position
      let board1 := board.set next (board.getD next 0 + 1)
      let rest := sow player stones next board1
      (next :: rest.1, rest.2.1, rest.2.2)

/-- `tryCapture(position, player)` from engine.js; returns the optional
capture record together with the (possibly updated) board. -/
def tryCapture (board : List ℕ) (position : ℕ) (player : ℕ) : Option Capture × List ℕ :=
  if !(isOwnSide position player) then (none, board)
  else if board.getD position 0 ≠ 1 then (none, board)
  else
    let opposite := 12 - position
    let oppositeStones := board.getD opposite 0
    if oppositeStones = 0 then (none, board)
    else
      let store := (pitRange player).store
      let captured := oppositeStones + 1
      let b1 := board.set store (board.getD store 0 + captured)
      let b2 := b1.set position 0
      let b3 := b2.set opposite 0
      (some { pit := position, opposite := opposite, store := store, captured := captured }, b3)

/-- The pit-checking loop of `isSideEmpty`, over `n` slots from `pit`. -/
def isSideEmptyAux : List ℕ → ℕ → ℕ → Bool
  | _, _, 0 => true
  | board, pit, n + 1 =>
      if board.getD pit 0 ≠ 0 then false else isSideEmptyAux board (pit + 1) n

/-- `isSideEmpty(player)` from engine.js. -/
def isSideEmpty (board : List ℕ) (player : ℕ) : Bool :=
  let range := pitRange player
  isSideEmptyAux board range.start (range.stop + 1 - range.start)

/-- The accumulation loop of `sumRange`, over `n` slots from `pit`. -/
def sumRangeAux : List ℕ → ℕ → ℕ → ℕ
  | _, _, 0 => 0
  | board, pit, n + 1 => board.getD pit 0 + sumRangeAux board (pit + 1) n

/-- `sumRange(start, end)` from engine.js. -/
def sumRange (board : List ℕ) (start stop : ℕ) : ℕ :=
  sumRangeAux board start (stop + 1 - start)

/-- The pit-zeroing loop of `collectRemainingStones`, over `n` slots. -/
def zeroRangeAux : List ℕ → ℕ → ℕ → List ℕ
  | board, _, 0 => board
  | board, pit, n + 1 => zeroRangeAux (board.set pit 0) (pit + 1) n

/-- `collectRemainingStones()` from engine.js: both remaining-pit sums
are read off the incoming board; each non-empty side's stones are then
added to that side's store and its pits zeroed. -/
def collectRemainingStones (board : List ℕ) : Sweep × List ℕ :=
  let humanRemaining := sumRange board 0 5
  let aiRemaining := sumRange board 7 12
  let b1 :=
    if 0 < humanRemaining then
      zeroRangeAux (board.set 6 (board.getD 6 0 + humanRemaining)) 0 6
    else board
  let b2 :=
    if 0 < aiRemaining then
      zeroRangeAux (b1.set 13 (b1.getD 13 0 + aiRemaining)) 7 6
    else b1
  ({ humanRemaining := humanRemaining
     aiRemaining := aiRemaining
     board := b2
     scores := getScores b2 }, b2)

/-- The sowing phase of `applyMove` on a given state: stones picked up
from the chosen pit (which is zeroed) are distributed by `sow`. -/
def sowOf (st : EngineState) (pitIndex : ℕ) : List ℕ × ℕ × List ℕ :=
  sow st.currentPlayer (st.board.getD pitIndex 0) pitIndex (st.board.set pitIndex 0)

/-- The capture phase of `applyMove`: skipped when the last stone landed
in the mover's store. -/
def postCapture (st : EngineState) (pitIndex : ℕ) : Option Capture × List ℕ :=
  let s := sowOf st pitIndex
  if isOwnStore s.2.1 st.currentPlayer then (none, s.2.2)
  else tryCapture s.2.2 s.2.1 st.currentPlayer

/-- The terminal test of `applyMove` after sowing and capture. -/
def endedAfter (st : EngineState) (pitIndex : ℕ) : Bool :=
  isSideEmpty (postCapture st pitIndex).2 0 || isSideEmpty (postCapture st pitIndex).2 1

/-- The game-end sweep phase of `applyMove`. -/
def postSweep (st : EngineState) (pitIndex : ℕ) : Option Sweep × List ℕ :=
  if endedAfter st pitIndex then
    let c := collectRemainingStones (postCapture st pitIndex).2
    (some c.1, c.2)
  else (none, (postCapture st pitIndex).2)

/-- The successful path of `applyMove` (after validation): builds the
move summary and the updated engine state. -/
def applyMoveCore (st : EngineState) (pitIndex : ℕ) : MoveSummary × EngineState :=
  let player := st.currentPlayer
  let s := sowOf st pitIndex
  let landedInStore := isOwnStore s.2.1 player
  let gameOver := endedAfter st pitIndex
  let nextPlayer := if !landedInStore && !gameOver then 1 - player else player
  ({ player := player
     pitIndex := pitIndex
     stonesPicked := st.board.getD pitIndex 0
     sequence := s.1
     lastPosition := s.2.1
     landedInStore := landedInStore
     capture := (postCapture st pitIndex).1
     sweep := (postSweep st pitIndex).1
     extraTurn := landedInStore
     board := (postSweep st pitIndex).2
     currentPlayer := nextPlayer
     gameOver := gameOver
     scores := getScores (postSweep st pitIndex).2 },
   { st with
      board := (postSweep st pitIndex).2
      currentPlayer := nextPlayer
      gameOver := gameOver })

/-- `applyMove(pitIndex)` from engine.js.  A raised exception is
modelled as an `Except.error` paired with the untouched state (both
`throw` statements in the source precede every mutation). -/
def applyMove (st : EngineState) (pitIndex : ℕ) : Except String MoveSummary × EngineState :=
  if st.gameOver then (Except.error "Cannot make a move after the game has ended", st)
  else if !(isValidMove st pitIndex st.currentPlayer) then
    (Except.error "Invalid move", st)
  else
    let r := applyMoveCore st pitIndex
    (Except.ok r.1, r.2)

/-- `simulateMove(pitIndex)` from engine.js: clone, then apply the move
on the clone; returns the move result together with the clone. -/
def simulateMove (st : EngineState) (pitIndex : ℕ) :
    Except String MoveSummary × EngineState :=
  applyMove (clone st) pitIndex

/-- States reachable from `st` by a sequence of successful `applyMove`
calls. -/
inductive Reachable : EngineState → EngineState → Prop
  | refl (st : EngineState) : Reachable st st
  | step {st st1 st2 : EngineState} {pit : ℕ} {ms : MoveSummary} :
      Reachable st st1 → applyMove st1 pit = (Except.ok ms, st2) → Reachable st st2

/-! ### Move evaluator (MancalaGame.evaluateMove / chooseBestAIMove)

Translated from the primary (pre-separator) front-end document of the
repository.  JavaScript floating-point scores are modelled by rationals
(the decimal literals 0.6, 35, 40, ... are exact); `-Infinity`
accumulators are modelled by `⊥` in `WithBot ℚ`; an exception raised
anywhere inside the evaluator surfaces as `none`. -/

/-- `result.scores[playerKey]` where `playerKey` is `"human"` when the
given player is 0 and `"ai"` otherwise. -/
def scoreOwn (player : ℕ) (sc : Scores) : ℚ :=
  if player = 0 then (sc.human : ℚ) else (sc.ai : ℚ)

/-- `result.scores[opponentKey]`, the complementary lookup. -/
def scoreOpp (player : ℕ) (sc : Scores) : ℚ :=
  if player = 0 then (sc.ai : ℚ) else (sc.human : ℚ)

/-- The assignment `opponentPerspective.currentPlayer = opponent` of the
opponent-reply loop. -/
def withCurrentPlayer (st : EngineState) (p : ℕ) : EngineState :=
  { st with currentPlayer := p }

/-- The body of the opponent-reply loop of `evaluateMove`: clone the
simulated engine, force `currentPlayer` to the opponent, simulate the
reply, and score it from the opponent's perspective. -/
def oppReplyScore (player : ℕ) (simEngine : EngineState) (oppPit : ℕ) : Option ℚ :=
  let opponent := if player = 0 then 1 else 0
  let opponentPerspective := withCurrentPlayer (clone simEngine) opponent
  match simulateMove opponentPerspective oppPit with
  | (Except.error _, _) => none
  | (Except.ok oppResult, _) =>
      let base := (scoreOpp player oppResult.scores - scoreOwn player oppResult.scores) * 6
      let s1 := if oppResult.extraTurn then base + 35 else base
      let s2 := match oppResult.capture with
        | some c => s1 + (15 + (c.captured : ℚ) * 2)
        | none => s1
      let s3 :=
        if oppResult.gameOver then
          s2 + (scoreOpp player oppResult.scores - scoreOwn player oppResult.scores) * 15
        else s2
      some s3

/-- The `worstOpponent` accumulation loop of `evaluateMove`: starts from
`⊥` (JavaScript `-Infinity`) and keeps the strictly larger reply score. -/
def worstOpponentLoop (player : ℕ) (simEngine : EngineState) :
    List ℕ → WithBot ℚ → Option (WithBot ℚ)
  | [], acc => some acc
  | oppPit :: rest, acc =>
      match oppReplyScore player simEngine oppPit with
      | none => none
      | some s =>
          worstOpponentLoop player simEngine rest
            (if acc < (s : WithBot ℚ) then (s : WithBot ℚ) else acc)

/-- `evaluateMove(player, pitIndex)` from the front-end: simulate the
move, add the extra-turn / capture / terminal bonuses, and unless the
move ends the game or earns an extra turn, subtract 0.6 times the
opponent's best reply score. -/
def evaluateMove (st : EngineState) (player : ℕ) (pitIndex : ℕ) : Option ℚ :=
  match simulateMove st pitIndex with
  | (Except.error _, _) => none
  | (Except.ok result, simulatedEngine) =>
      let base := (scoreOwn player result.scores - scoreOpp player result.scores) * 6
      let s1 := if result.extraTurn then base + 40 else base
      let s2 := match result.capture with
        | some c => s1 + (15 + (c.captured : ℚ) * 3)
        | none => s1
      if result.gameOver then
        some (s2 + (scoreOwn player result.scores - scoreOpp player result.scores) * 20)
      else if result.extraTurn then
        some s2
      else
        let opponent := if player = 0 then 1 else 0
        let opponentMoves := getValidMoves simulatedEngine opponent
        match opponentMoves with
        | [] => some (s2 + 10)
        | _ :: _ =>
            match worstOpponentLoop player simulatedEngine opponentMoves ⊥ with
            | none => none
            | some w =>
                if w = ⊥ then none
                else some (s2 - (w.unbot' 0) * (0.6 : ℚ))

/-- The best-move selection loop shared by `chooseBestAIMove` and
`showHint`: `bestScore` starts at `⊥` (`-Infinity`) and is replaced on
strict improvement only. -/
def chooseLoop (st : EngineState) (player : ℕ) :
    List ℕ → ℕ → WithBot ℚ → Option (ℕ × WithBot ℚ)
  | [], bestMove, bestScore => some (bestMove, bestScore)
  | pit :: rest, bestMove, bestScore =>
      match evaluateMove st player pit with
      | none => none
      | some score =>
          if bestScore < (score : WithBot ℚ) then
            chooseLoop st player rest pit (score : WithBot ℚ)
          else
            chooseLoop st player rest bestMove bestScore

/-- `chooseBestAIMove()` from the front-end, generalised over the player
exactly as the specification's `chooseBest(engine, player)`: `some none`
models a returned `null`, `some (some pit)` a returned pit, and `none`
an exception escaping the loop. -/
def chooseBestAIMove (st : EngineState) (player : ℕ) : Option (Option ℕ) :=
  match getValidMoves st player with
  | [] => some none
  | first :: rest =>
      match chooseLoop st player (first :: rest) first ⊥ with
      | none => none
      | some r => some (some r.1)

/-! ### List bookkeeping lemmas -/

theorem getD_set_self {l : List ℕ} {i : ℕ} (v : ℕ) (h : i < l.length) :
    (l.set i v).getD i 0 = v := by
  induction l generalizing i with
  | nil => simp at h
  | cons a t ih =>
      cases i with
      | zero => simp [List.set]
      | succ n =>
          simp only [List.set, List.getD_cons_succ]
          exact ih (by simpa using h)

theorem getD_set_ne {l : List ℕ} {i j : ℕ} (v : ℕ) (h : i ≠ j) :
    (l.set i v).getD j 0 = l.getD j 0 := by
  induction l generalizing i j with
  | nil => simp [List.set]
  | cons a t ih =>
      cases i with
      | zero =>
          cases j with
          | zero => exact absurd rfl h
          | succ m => simp [List.set]
      | succ n =>
          cases j with
          | zero => simp [List.set]
          | succ m =>
              simp only [List.set, List.getD_cons_succ]
              exact ih (fun hnm => h (by rw [hnm]))

theorem sum_set_getD {l : List ℕ} {i : ℕ} (v : ℕ) (h : i < l.length) :
    (l.set i v).sum + l.getD i 0 = l.sum + v := by
  induction l generalizing i with
  | nil => simp at h
  | cons a t ih =>
      cases i with
      | zero => simp [List.set]; omega
      | succ n =>
          simp only [List.set, List.sum_cons, List.getD_cons_succ]
          have := ih (show n < t.length by simpa using h)
          omega

/-! ### Sowing lemmas -/

theorem sowStep_lt (player position : ℕ) : sowStep player position < 14 := by
  cases h : shouldSkipPosition ((position + 1) % 14) player <;>
    simp [sowStep, h] <;> omega

/-- Single unfolding of the sowing loop. -/
theorem sow_succ (player stones position : ℕ) (board : List ℕ) :
    sow player (stones + 1) position board =
      ((sowStep player position) ::
        (sow player stones (sowStep player position)
          (board.set (sowStep player position)
            (board.getD (sowStep player position) 0 + 1))).1,
       (sow player stones (sowStep player position)
          (board.set (sowStep player position)
            (board.getD (sowStep player position) 0 + 1))).2.1,
       (sow player stones (sowStep player position)
          (board.set (sowStep player position)
            (board.getD (sowStep player position) 0 + 1))).2.2) := rfl

theorem sow_board_length (player : ℕ) :
    ∀ (stones position : ℕ) (board : List ℕ),
      (sow player stones position board).2.2.length = board.length := by
  intro stones
  induction stones with
  | zero => intro position board; rfl
  | succ n ih =>
      intro position board
      simp only [sow]
      rw [ih]
      exact List.length_set ..

theorem sow_board_sum (player : ℕ) :
    ∀ (stones position : ℕ) (board : List ℕ), board.length = 14 →
      (sow player stones position board).2.2.sum = board.sum + stones := by
  intro stones
  induction stones with
  | zero => intro position board _; rfl
  | succ n ih =>
      intro position board hlen
      simp only [sow]
      have hlt : sowStep player position < board.length := by
        rw [hlen]; exact sowStep_lt ..
      have hsum := sum_set_getD (l := board) (i := sowStep player position)
        (board.getD (sowStep player position) 0 + 1) hlt
      rw [ih _ _ (by rw [List.length_set]; exact hlen)]
      omega

theorem sow_seq_length (player : ℕ) :
    ∀ (stones position : ℕ) (board : List ℕ),
      (sow player stones position board).1.length = stones := by
  intro stones
  induction stones with
  | zero => intro position board; rfl
  | succ n ih => intro position board; simp only [sow, List.length_cons, ih]

theorem sow_last (player : ℕ) :
    ∀ (stones position : ℕ) (board : List ℕ), 0 < stones →
      (sow player stones position board).1.getLast? =
        some (sow player stones position board).2.1 := by
  intro stones
  induction stones with
  | zero => intro _ _ h; exact absurd h (by omega)
  | succ n ih =>
      intro position board _
      rw [sow_succ]
      set rest := sow player n (sowStep player position)
        ((board.set (sowStep player position)
          (board.getD (sowStep player position) 0 + 1))) with hrest
      cases n with
      | zero => rfl
      | succ m =>
          have hlen : rest.1.length = m + 1 := sow_seq_length ..
          have hlast : rest.1.getLast? = some rest.2.1 := ih _ _ (by omega)
          cases hseq : rest.1 with
          | nil => rw [hseq] at hlen; simp at hlen
          | cons x xs =>
              rw [hseq] at hlast
              simp only [hseq, List.getLast?_cons_cons]
              exact hlast

/-- The index of the opponent's store for players 0 and 1. -/
def oppStoreIdx (player : ℕ) : ℕ := if player = 0 then 13 else 6

theorem sowStep_ne_oppStore {player : ℕ} (hp : player = 0 ∨ player = 1)
    (position : ℕ) : sowStep player position ≠ oppStoreIdx player := by
  unfold sowStep oppStoreIdx shouldSkipPosition
  rcases hp with hp | hp <;> subst hp <;> simp only [if_pos rfl] <;>
    rcases h13 : (position + 1) % 14 == 13 with _ | _ <;>
    rcases h6 : (position + 1) % 14 == 6 with _ | _ <;>
    simp_all

theorem sow_avoids_oppStore {player : ℕ} (hp : player = 0 ∨ player = 1) :
    ∀ (stones position : ℕ) (board : List ℕ),
      (∀ x ∈ (sow player stones position board).1, x ≠ oppStoreIdx player) ∧
      (sow player stones position board).2.2.getD (oppStoreIdx player) 0 =
        board.getD (oppStoreIdx player) 0 := by
  intro stones
  induction stones with
  | zero => intro position board; exact ⟨by simp [sow], rfl⟩
  | succ n ih =>
      intro position board
      have hne := sowStep_ne_oppStore hp position
      obtain ⟨ihmem, ihgetD⟩ := ih (sowStep player position)
        (board.set (sowStep player position) (board.getD (sowStep player position) 0 + 1))
      constructor
      · intro x hx
        simp only [sow, List.mem_cons] at hx
        rcases hx with rfl | hx
        · exact hne
        · exact ihmem x hx
      · simp only [sow]
        rw [ihgetD, getD_set_ne _ hne]

/-! ### Validity and applyMove characterization -/

theorem valid_player {st : EngineState} {pit player : ℕ}
    (h : isValidMove st pit player = true) : player = 0 ∨ player = 1 := by
  by_contra hcon
  push_neg at hcon
  unfold isValidMove PIT_RANGE at h
  rw [if_neg hcon.1, if_neg hcon.2] at h
  split at h <;> simp at h

theorem PIT_RANGE_eq_pitRange {player : ℕ} (hp : player = 0 ∨ player = 1) :
    PIT_RANGE player = some (pitRange player) := by
  rcases hp with hp | hp <;> subst hp <;> rfl

theorem valid_facts {st : EngineState} {pit player : ℕ}
    (h : isValidMove st pit player = true) :
    st.gameOver = false ∧ (pitRange player).start ≤ pit ∧
      pit ≤ (pitRange player).stop ∧ 0 < st.board.getD pit 0 := by
  have hp := valid_player h
  unfold isValidMove at h
  rw [PIT_RANGE_eq_pitRange hp] at h
  by_cases hgo : st.gameOver
  · rw [if_pos hgo] at h; simp at h
  · rw [if_neg hgo] at h
    simp only [Bool.and_eq_true, decide_eq_true_eq] at h
    exact ⟨by simpa using hgo, h.1.1, h.1.2, h.2⟩

theorem valid_of_facts {st : EngineState} {pit player : ℕ}
    (hp : player = 0 ∨ player = 1) (hgo : st.gameOver = false)
    (h1 : (pitRange player).start ≤ pit) (h2 : pit ≤ (pitRange player).stop)
    (h3 : 0 < st.board.getD pit 0) : isValidMove st pit player = true := by
  unfold isValidMove
  rw [PIT_RANGE_eq_pitRange hp, if_neg (by simp [hgo])]
  simp only [Bool.and_eq_true, decide_eq_true_eq]
  exact ⟨⟨h1, h2⟩, h3⟩

theorem valid_not_gameOver {st : EngineState} {pit player : ℕ}
    (h : isValidMove st pit player = true) : st.gameOver = false :=
  (valid_facts h).1

theorem applyMove_ok_of_valid {st : EngineState} {pit : ℕ}
    (h : isValidMove st pit st.currentPlayer = true) :
    applyMove st pit =
      (Except.ok (applyMoveCore st pit).1, (applyMoveCore st pit).2) := by
  unfold applyMove
  rw [if_neg (by simp [valid_not_gameOver h]), if_neg (by simp [h])]

theorem applyMove_ok_elim {st st2 : EngineState} {pit : ℕ} {ms : MoveSummary}
    (h : applyMove st pit = (Except.ok ms, st2)) :
    isValidMove st pit st.currentPlayer = true ∧
      ms = (applyMoveCore st pit).1 ∧ st2 = (applyMoveCore st pit).2 := by
  unfold applyMove at h
  by_cases hgo : st.gameOver
  · rw [if_pos hgo] at h
    exact absurd (congrArg Prod.fst h) (by simp)
  · rw [if_neg hgo] at h
    by_cases hv : isValidMove st pit st.currentPlayer
    · rw [if_neg (by simp [hv])] at h
      have h1 := congrArg Prod.fst h
      have h2 := congrArg Prod.snd h
      simp only at h1 h2
      exact ⟨hv, (Except.ok.inj h1.symm), h2.symm⟩
    · rw [if_pos (by simpa using hv)] at h
      exact absurd (congrArg Prod.fst h) (by simp)

theorem mem_validMovesAux {b : List ℕ} {p : ℕ} :
    ∀ {start n : ℕ}, p ∈ validMovesAux b start n ↔
      (start ≤ p ∧ p < start + n ∧ 0 < b.getD p 0) := by
  intro start n
  induction n generalizing start with
  | zero => simp [validMovesAux]; omega
  | succ m ih =>
      simp only [validMovesAux, List.mem_append]
      constructor
      · rintro (hp | hp)
        · split at hp <;> simp at hp
          rcases hp with rfl
          refine ⟨le_refl _, by omega, by assumption⟩
        · obtain ⟨h1, h2, h3⟩ := ih.mp hp
          exact ⟨by omega, by omega, h3⟩
      · rintro ⟨h1, h2, h3⟩
        by_cases hsp : p = start
        · subst hsp
          left
          rw [if_pos h3]
          exact List.mem_singleton_self _
        · right
          exact ih.mpr ⟨by omega, by omega, h3⟩

theorem pitRange_span (player : ℕ) :
    (pitRange player).stop + 1 - (pitRange player).start = 6 ∧
      (pitRange player).start + 6 = (pitRange player).stop + 1 := by
  unfold pitRange
  split <;> simp

theorem mem_getValidMoves {st : EngineState} {p player : ℕ} :
    p ∈ getValidMoves st player ↔
      (st.gameOver = false ∧ (pitRange player).start ≤ p ∧
        p ≤ (pitRange player).stop ∧ 0 < st.board.getD p 0) := by
  unfold getValidMoves
  by_cases hgo : st.gameOver
  · simp [hgo]
  · rw [if_neg hgo]
    simp only [mem_validMovesAux, (pitRange_span player).1]
    have := (pitRange_span player).2
    constructor
    · rintro ⟨h1, h2, h3⟩
      exact ⟨by simpa using hgo, h1, by omega, h3⟩
    · rintro ⟨_, h1, h2, h3⟩
      exact ⟨h1, by omega, h3⟩

theorem isValidMove_of_mem {st : EngineState} {p player : ℕ}
    (hp : player = 0 ∨ player = 1) (h : p ∈ getValidMoves st player) :
    isValidMove st p player = true := by
  obtain ⟨hgo, h1, h2, h3⟩ := mem_getValidMoves.mp h
  exact valid_of_facts hp hgo h1 h2 h3

theorem clone_board (st : EngineState) : (clone st).board = st.board := rfl

theorem clone_currentPlayer (st : EngineState) :
    (clone st).currentPlayer = st.currentPlayer := rfl

theorem clone_gameOver (st : EngineState) : (clone st).gameOver = st.gameOver := rfl

theorem isValidMove_clone (st : EngineState) (pit player : ℕ) :
    isValidMove (clone st) pit player = isValidMove st pit player := rfl

/-! ### Capture lemmas -/

theorem tryCapture_pos {b : List ℕ} {pos player : ℕ}
    (h1 : isOwnSide pos player = true) (h2 : b.getD pos 0 = 1)
    (h3 : 0 < b.getD (12 - pos) 0) :
    tryCapture b pos player =
      (some ⟨pos, 12 - pos, (pitRange player).store, b.getD (12 - pos) 0 + 1⟩,
       ((b.set (pitRange player).store
          (b.getD (pitRange player).store 0 + (b.getD (12 - pos) 0 + 1))).set pos 0).set
          (12 - pos) 0) := by
  unfold tryCapture
  rw [if_neg (by simp [h1]), if_neg (by omega), if_neg (by omega)]

theorem tryCapture_neg {b : List ℕ} {pos player : ℕ}
    (h : ¬(isOwnSide pos player = true ∧ b.getD pos 0 = 1 ∧ 0 < b.getD (12 - pos) 0)) :
    tryCapture b pos player = (none, b) := by
  unfold tryCapture
  by_cases h1 : isOwnSide pos player
  · rw [if_neg (by simp [h1])]
    by_cases h2 : b.getD pos 0 = 1
    · rw [if_neg (by omega)]
      rw [if_pos (by rcases Nat.eq_zero_or_pos (b.getD (12 - pos) 0) with h3 | h3
                     · exact h3
                     · exact absurd ⟨h1, h2, h3⟩ h)]
    · rw [if_pos (by simpa using h2)]
  · rw [if_pos (by simpa using h1)]

theorem ownSide_bounds {pos player : ℕ} (h : isOwnSide pos player = true) :
    (pitRange player).start ≤ pos ∧ pos ≤ (pitRange player).stop := by
  unfold isOwnSide at h
  simp only [Bool.and_eq_true, decide_eq_true_eq] at h
  exact h

theorem pitRange_zero : pitRange 0 = ⟨0, 5, 6⟩ := rfl

theorem pitRange_one : pitRange 1 = ⟨7, 12, 13⟩ := rfl

theorem ownSide_bounds_zero {pos : ℕ} (h : isOwnSide pos 0 = true) : pos ≤ 5 := by
  have := ownSide_bounds h
  rw [pitRange_zero] at this
  exact this.2

theorem ownSide_bounds_one {pos : ℕ} (h : isOwnSide pos 1 = true) :
    7 ≤ pos ∧ pos ≤ 12 := by
  have := ownSide_bounds h
  rw [pitRange_one] at this
  exact this

theorem tryCapture_preserves {b : List ℕ} {player : ℕ} (pos : ℕ)
    (hp : player = 0 ∨ player = 1) (hlen : b.length = 14) :
    (tryCapture b pos player).2.sum = b.sum ∧
      (tryCapture b pos player).2.length = 14 := by
  by_cases hc : isOwnSide pos player = true ∧ b.getD pos 0 = 1 ∧ 0 < b.getD (12 - pos) 0
  · obtain ⟨h1, h2, h3⟩ := hc
    rw [tryCapture_pos h1 h2 h3]
    dsimp only
    have hbounds : (pitRange player).store < 14 ∧ pos < 14 ∧ 12 - pos < 14 ∧
        (pitRange player).store ≠ pos ∧ (pitRange player).store ≠ 12 - pos ∧
        pos ≠ 12 - pos := by
      rcases hp with rfl | rfl
      · have hb5 := ownSide_bounds_zero h1
        rw [pitRange_zero]
        exact ⟨show (6 : ℕ) < 14 by omega, by omega, by omega,
          show (6 : ℕ) ≠ pos by omega, show (6 : ℕ) ≠ 12 - pos by omega, by omega⟩
      · have hb7 := ownSide_bounds_one h1
        rw [pitRange_one]
        exact ⟨show (13 : ℕ) < 14 by omega, by omega, by omega,
          show (13 : ℕ) ≠ pos by omega, show (13 : ℕ) ≠ 12 - pos by omega, by omega⟩
    obtain ⟨hstlt, hposlt, hopplt, hne1, hne2, hne3⟩ := hbounds
    set store := (pitRange player).store with hstore
    have s1 := sum_set_getD (l := b) (i := store)
      (b.getD store 0 + (b.getD (12 - pos) 0 + 1)) (by omega)
    have s2 := sum_set_getD (l := b.set store (b.getD store 0 + (b.getD (12 - pos) 0 + 1)))
      (i := pos) 0 (by rw [List.length_set]; omega)
    have s3 := sum_set_getD
      (l := (b.set store (b.getD store 0 + (b.getD (12 - pos) 0 + 1))).set pos 0)
      (i := 12 - pos) 0 (by rw [List.length_set, List.length_set]; omega)
    have g1 : (b.set store (b.getD store 0 + (b.getD (12 - pos) 0 + 1))).getD pos 0 =
        b.getD pos 0 := getD_set_ne _ hne1
    have g2 : ((b.set store (b.getD store 0 + (b.getD (12 - pos) 0 + 1))).set pos 0).getD
        (12 - pos) 0 = b.getD (12 - pos) 0 := by
      rw [getD_set_ne _ hne3, getD_set_ne _ hne2]
    constructor
    · rw [g1, h2] at s2
      rw [g2] at s3
      omega
    · rw [List.length_set, List.length_set, List.length_set]; exact hlen
  · rw [tryCapture_neg hc]
    exact ⟨rfl, hlen⟩

/-! ### Game-end sweep lemmas -/

theorem exists_fourteen {l : List ℕ} (h : l.length = 14) :
    ∃ a0 a1 a2 a3 a4 a5 a6 a7 a8 a9 a10 a11 a12 a13 : ℕ,
      l = [a0, a1, a2, a3, a4, a5, a6, a7, a8, a9, a10, a11, a12, a13] := by
  obtain ⟨a0, t, rfl⟩ := List.exists_of_length_succ l h
  simp only [List.length_cons] at h
  obtain ⟨a1, t, rfl⟩ := List.exists_of_length_succ t (show t.length = 12 + 1 by omega)
  simp only [List.length_cons] at h
  obtain ⟨a2, t, rfl⟩ := List.exists_of_length_succ t (show t.length = 11 + 1 by omega)
  simp only [List.length_cons] at h
  obtain ⟨a3, t, rfl⟩ := List.exists_of_length_succ t (show t.length = 10 + 1 by omega)
  simp only [List.length_cons] at h
  obtain ⟨a4, t, rfl⟩ := List.exists_of_length_succ t (show t.length = 9 + 1 by omega)
  simp only [List.length_cons] at h
  obtain ⟨a5, t, rfl⟩ := List.exists_of_length_succ t (show t.length = 8 + 1 by omega)
  simp only [List.length_cons] at h
  obtain ⟨a6, t, rfl⟩ := List.exists_of_length_succ t (show t.length = 7 + 1 by omega)
  simp only [List.length_cons] at h
  obtain ⟨a7, t, rfl⟩ := List.exists_of_length_succ t (show t.length = 6 + 1 by omega)
  simp only [List.length_cons] at h
  obtain ⟨a8, t, rfl⟩ := List.exists_of_length_succ t (show t.length = 5 + 1 by omega)
  simp only [List.length_cons] at h
  obtain ⟨a9, t, rfl⟩ := List.exists_of_length_succ t (show t.length = 4 + 1 by omega)
  simp only [List.length_cons] at h
  obtain ⟨a10, t, rfl⟩ := List.exists_of_length_succ t (show t.length = 3 + 1 by omega)
  simp only [List.length_cons] at h
  obtain ⟨a11, t, rfl⟩ := List.exists_of_length_succ t (show t.length = 2 + 1 by omega)
  simp only [List.length_cons] at h
  obtain ⟨a12, t, rfl⟩ := List.exists_of_length_succ t (show t.length = 1 + 1 by omega)
  simp only [List.length_cons] at h
  obtain ⟨a13, t, rfl⟩ := List.exists_of_length_succ t (show t.length = 0 + 1 by omega)
  simp only [List.length_cons] at h
  obtain rfl := List.length_eq_zero.mp (show t.length = 0 by omega)
  exact ⟨a0, a1, a2, a3, a4, a5, a6, a7, a8, a9, a10, a11, a12, a13, rfl⟩

theorem collect_board {b : List ℕ} (hlen : b.length = 14) :
    (collectRemainingStones b).2.sum = b.sum ∧
      (collectRemainingStones b).2.length = 14 ∧
      (collectRemainingStones b).2.getD 6 0 = b.getD 6 0 + sumRange b 0 5 ∧
      (collectRemainingStones b).2.getD 13 0 = b.getD 13 0 + sumRange b 7 12 ∧
      (∀ i : ℕ, (i ≤ 5 ∨ (7 ≤ i ∧ i ≤ 12)) → (collectRemainingStones b).2.getD i 0 = 0) := by
  obtain ⟨a0, a1, a2, a3, a4, a5, a6, a7, a8, a9, a10, a11, a12, a13, rfl⟩ :=
    exists_fourteen hlen
  have hsum1 : sumRange [a0, a1, a2, a3, a4, a5, a6, a7, a8, a9, a10, a11, a12, a13] 0 5 =
      a0 + (a1 + (a2 + (a3 + (a4 + a5)))) := rfl
  have hsum2 : sumRange [a0, a1, a2, a3, a4, a5, a6, a7, a8, a9, a10, a11, a12, a13] 7 12 =
      a7 + (a8 + (a9 + (a10 + (a11 + a12)))) := rfl
  by_cases hH : 0 < a0 + (a1 + (a2 + (a3 + (a4 + a5)))) <;>
    by_cases hA : 0 < a7 + (a8 + (a9 + (a10 + (a11 + a12))))
  · have e : (collectRemainingStones
        [a0, a1, a2, a3, a4, a5, a6, a7, a8, a9, a10, a11, a12, a13]).2 =
        [0, 0, 0, 0, 0, 0, a6 + (a0 + (a1 + (a2 + (a3 + (a4 + a5))))),
         0, 0, 0, 0, 0, 0, a13 + (a7 + (a8 + (a9 + (a10 + (a11 + a12)))))] := by
      simp only [collectRemainingStones, hsum1, hsum2]
      rw [if_pos hH, if_pos hA]; rfl
    rw [hsum1, hsum2, e]
    refine ⟨?_, rfl, ?_, ?_, ?_⟩
    · simp only [List.sum_cons, List.sum_nil]; omega
    · simp only [List.getD_cons_succ, List.getD_cons_zero]
    · simp only [List.getD_cons_succ, List.getD_cons_zero]
    · intro i hi
      rcases hi with hi | ⟨hi1, hi2⟩ <;> interval_cases i <;>
        simp only [List.getD_cons_succ, List.getD_cons_zero]
  · have e : (collectRemainingStones
        [a0, a1, a2, a3, a4, a5, a6, a7, a8, a9, a10, a11, a12, a13]).2 =
        [0, 0, 0, 0, 0, 0, a6 + (a0 + (a1 + (a2 + (a3 + (a4 + a5))))),
         a7, a8, a9, a10, a11, a12, a13] := by
      simp only [collectRemainingStones, hsum1, hsum2]
      rw [if_pos hH, if_neg hA]; rfl
    rw [hsum1, hsum2, e]
    refine ⟨?_, rfl, ?_, ?_, ?_⟩
    · simp only [List.sum_cons, List.sum_nil]; omega
    · simp only [List.getD_cons_succ, List.getD_cons_zero]
    · simp only [List.getD_cons_succ, List.getD_cons_zero]; omega
    · intro i hi
      rcases hi with hi | ⟨hi1, hi2⟩ <;> interval_cases i <;>
        simp only [List.getD_cons_succ, List.getD_cons_zero] <;> omega
  · have e : (collectRemainingStones
        [a0, a1, a2, a3, a4, a5, a6, a7, a8, a9, a10, a11, a12, a13]).2 =
        [a0, a1, a2, a3, a4, a5, a6,
         0, 0, 0, 0, 0, 0, a13 + (a7 + (a8 + (a9 + (a10 + (a11 + a12)))))] := by
      simp only [collectRemainingStones, hsum1, hsum2]
      rw [if_neg hH, if_pos hA]; rfl
    rw [hsum1, hsum2, e]
    refine ⟨?_, rfl, ?_, ?_, ?_⟩
    · simp only [List.sum_cons, List.sum_nil]; omega
    · simp only [List.getD_cons_succ, List.getD_cons_zero]; omega
    · simp only [List.getD_cons_succ, List.getD_cons_zero]
    · intro i hi
      rcases hi with hi | ⟨hi1, hi2⟩ <;> interval_cases i <;>
        simp only [List.getD_cons_succ, List.getD_cons_zero] <;> omega
  · have e : (collectRemainingStones
        [a0, a1, a2, a3, a4, a5, a6, a7, a8, a9, a10, a11, a12, a13]).2 =
        [a0, a1, a2, a3, a4, a5, a6, a7, a8, a9, a10, a11, a12, a13] := by
      simp only [collectRemainingStones, hsum1, hsum2]
      rw [if_neg hH, if_neg hA]
    rw [hsum1, hsum2, e]
    refine ⟨rfl, rfl, ?_, ?_, ?_⟩
    · simp only [List.getD_cons_succ, List.getD_cons_zero]; omega
    · simp only [List.getD_cons_succ, List.getD_cons_zero]; omega
    · intro i hi
      rcases hi with hi | ⟨hi1, hi2⟩ <;> interval_cases i <;>
        simp only [List.getD_cons_succ, List.getD_cons_zero] <;> omega

/-! ### applyMove preservation -/

theorem valid_pit_lt {st : EngineState} {pit player : ℕ}
    (h : isValidMove st pit player = true) : pit < 14 := by
  obtain ⟨_, _, hle, _⟩ := valid_facts h
  rcases valid_player h with rfl | rfl
  · rw [pitRange_zero] at hle
    have h5 : pit ≤ 5 := hle
    omega
  · rw [pitRange_one] at hle
    have h12 : pit ≤ 12 := hle
    omega

theorem applyMove_preserves {st st2 : EngineState} {pit : ℕ} {ms : MoveSummary}
    (hlen : st.board.length = 14) (h : applyMove st pit = (Except.ok ms, st2)) :
    st2.board.sum = st.board.sum ∧ st2.board.length = 14 := by
  obtain ⟨hv, _, hst⟩ := applyMove_ok_elim h
  have hp := valid_player hv
  have hpit14 : pit < 14 := valid_pit_lt hv
  have hlen0 : (st.board.set pit 0).length = 14 := by
    rw [List.length_set]; exact hlen
  have hsum0 := sum_set_getD (l := st.board) (i := pit) 0 (by omega)
  have hs_sum : (sowOf st pit).2.2.sum = st.board.sum := by
    unfold sowOf
    rw [sow_board_sum _ _ _ _ hlen0]
    omega
  have hs_len : (sowOf st pit).2.2.length = 14 := by
    unfold sowOf
    rw [sow_board_length]
    exact hlen0
  have hc : (postCapture st pit).2.sum = st.board.sum ∧
      (postCapture st pit).2.length = 14 := by
    unfold postCapture
    by_cases hls : isOwnStore (sowOf st pit).2.1 st.currentPlayer = true
    · rw [if_pos hls]
      exact ⟨hs_sum, hs_len⟩
    · rw [if_neg hls]
      have hpres := tryCapture_preserves (sowOf st pit).2.1 hp hs_len
      exact ⟨hpres.1.trans hs_sum, hpres.2⟩
  rw [hst]
  show (postSweep st pit).2.sum = st.board.sum ∧ (postSweep st pit).2.length = 14
  unfold postSweep
  by_cases hend : endedAfter st pit = true
  · rw [if_pos hend]
    show (collectRemainingStones (postCapture st pit).2).2.sum = st.board.sum ∧
      (collectRemainingStones (postCapture st pit).2).2.length = 14
    obtain ⟨csum, clen, _⟩ := collect_board hc.2
    exact ⟨csum.trans hc.1, clen⟩
  · rw [if_neg hend]
    exact hc

/-! ### Concrete example states from the specification's test vectors -/

def exDefault : EngineState := mkEngine none 0

def exSkipSt : EngineState := mkEngine (some [10, 0, 0, 0, 0, 0, 0, 4, 4, 4, 4, 4, 4, 0]) 0

def exSweepSt : EngineState := mkEngine (some [0, 0, 0, 0, 0, 1, 20, 0, 0, 0, 0, 0, 5, 15]) 0

def exCaptureSt : EngineState := mkEngine (some [0, 0, 0, 1, 0, 0, 0, 4, 3, 4, 4, 4, 4, 0]) 0

/-! ### Claim C1: stone conservation -/

/-- C1: every engine state reachable from an initial state by successful
`applyMove` calls keeps the board total equal to the initial board's
total; no single successful `applyMove` (capture and sweep included)
changes the total; the default board totals 48. -/
theorem C1_stone_conservation :
    (∀ st0 st : EngineState, st0.board.length = 14 → Reachable st0 st →
      st.board.sum = st0.board.sum ∧ st.board.length = 14) ∧
    (∀ (st st2 : EngineState) (pit : ℕ) (ms : MoveSummary),
      st.board.length = 14 → applyMove st pit = (Except.ok ms, st2) →
      st2.board.sum = st.board.sum) ∧
    (mkEngine none 0).board.sum = 48 := by
  refine ⟨?_, ?_, rfl⟩
  · intro st0 st hlen hr
    induction hr with
    | refl => exact ⟨rfl, hlen⟩
    | step hr happly ih =>
        obtain ⟨hsum, hlen1⟩ := ih
        obtain ⟨h1, h2⟩ := applyMove_preserves hlen1 happly
        exact ⟨h1.trans hsum, h2⟩
  · intro st st2 pit ms hlen happly
    exact (applyMove_preserves hlen happly).1

/-- Witness for C1: one concrete move from the default opening position
keeps the total at 48. -/
theorem C1_stone_conservation_witness :
    exDefault.board.length = 14 ∧
      (applyMoveCore exDefault 2).2.board.sum = exDefault.board.sum ∧
      (applyMoveCore exDefault 2).2.board.length = 14 :=
  ⟨by decide,
    C1_stone_conservation.1 exDefault (applyMoveCore exDefault 2).2 (by decide)
      (Reachable.step (Reachable.refl exDefault)
        (show applyMove exDefault 2 =
          (Except.ok (applyMoveCore exDefault 2).1, (applyMoveCore exDefault 2).2) from rfl))⟩

/-! ### Claim C10: move summary sowing consistency -/

/-- C10: on every successful `applyMove`, the summary's drop sequence
has exactly `stonesPicked` entries, is non-empty, and ends at
`lastPosition`. -/
theorem C10_summary_consistency :
    ∀ (st st2 : EngineState) (pit : ℕ) (ms : MoveSummary),
      applyMove st pit = (Except.ok ms, st2) →
      ms.sequence.length = ms.stonesPicked ∧ ms.sequence ≠ [] ∧
        ms.sequence.getLast? = some ms.lastPosition := by
  intro st st2 pit ms h
  obtain ⟨hv, hms, _⟩ := applyMove_ok_elim h
  have hpos : 0 < st.board.getD pit 0 := (valid_facts hv).2.2.2
  subst hms
  refine ⟨?_, ?_, ?_⟩
  · show (sowOf st pit).1.length = st.board.getD pit 0
    unfold sowOf
    exact sow_seq_length ..
  · show (sowOf st pit).1 ≠ []
    have hl : (sowOf st pit).1.length = st.board.getD pit 0 := sow_seq_length ..
    intro hnil
    rw [hnil, List.length_nil] at hl
    omega
  · show (sowOf st pit).1.getLast? = some (sowOf st pit).2.1
    unfold sowOf
    exact sow_last _ _ _ _ hpos

/-- Witness for C10 at the default opening move from pit 2. -/
theorem C10_summary_consistency_witness :
    (applyMoveCore exDefault 2).1.sequence.length =
        (applyMoveCore exDefault 2).1.stonesPicked ∧
      (applyMoveCore exDefault 2).1.sequence ≠ [] ∧
      (applyMoveCore exDefault 2).1.sequence.getLast? =
        some (applyMoveCore exDefault 2).1.lastPosition :=
  C10_summary_consistency exDefault (applyMoveCore exDefault 2).2 2
    (applyMoveCore exDefault 2).1 rfl

/-! ### Claim C4: sowing skips the opponent's store -/

/-- C4: on every successful `applyMove`, the drop sequence never
contains the opponent's store, the sowing phase leaves the opponent's
store untouched, and skips cost no stones (one sequence entry per picked
stone); concretely, sowing 10 stones from pit 0 as player 0 never drops
into slot 13 and leaves it at 0. -/
theorem C4_skip_opponent_store :
    (∀ (st st2 : EngineState) (pit : ℕ) (ms : MoveSummary),
      applyMove st pit = (Except.ok ms, st2) →
      oppStoreIdx st.currentPlayer ∉ ms.sequence ∧
        (sowOf st pit).2.2.getD (oppStoreIdx st.currentPlayer) 0 =
          st.board.getD (oppStoreIdx st.currentPlayer) 0 ∧
        ms.sequence.length = ms.stonesPicked) ∧
    (13 ∉ (applyMoveCore exSkipSt 0).1.sequence ∧
      (applyMoveCore exSkipSt 0).2.board.getD 13 0 = 0) := by
  constructor
  · intro st st2 pit ms h
    obtain ⟨hv, hms, _⟩ := applyMove_ok_elim h
    have hp := valid_player hv
    obtain ⟨_, hge, hle, _⟩ := valid_facts hv
    have hpitne : pit ≠ oppStoreIdx st.currentPlayer := by
      rcases hp with hp | hp <;> rw [hp] at hle hge ⊢
      · rw [pitRange_zero] at hle
        have h5 : pit ≤ 5 := hle
        exact show pit ≠ 13 by omega
      · rw [pitRange_one] at hle hge
        have h12 : pit ≤ 12 := hle
        have h7 : 7 ≤ pit := hge
        exact show pit ≠ 6 by omega
    subst hms
    obtain ⟨hmem, hgetD⟩ := sow_avoids_oppStore hp (st.board.getD pit 0) pit
      (st.board.set pit 0)
    refine ⟨?_, ?_, ?_⟩
    · show oppStoreIdx st.currentPlayer ∉ (sowOf st pit).1
      intro hin
      exact hmem _ hin rfl
    · show (sowOf st pit).2.2.getD (oppStoreIdx st.currentPlayer) 0 =
        st.board.getD (oppStoreIdx st.currentPlayer) 0
      unfold sowOf
      rw [hgetD]
      exact getD_set_ne _ hpitne
    · show (sowOf st pit).1.length = st.board.getD pit 0
      unfold sowOf
      exact sow_seq_length ..
  · exact ⟨by decide, by decide⟩

/-- Witness for C4 at the skip-test board, player 0 playing pit 0. -/
theorem C4_skip_opponent_store_witness :
    oppStoreIdx exSkipSt.currentPlayer ∉ (applyMoveCore exSkipSt 0).1.sequence ∧
      (sowOf exSkipSt 0).2.2.getD (oppStoreIdx exSkipSt.currentPlayer) 0 =
        exSkipSt.board.getD (oppStoreIdx exSkipSt.currentPlayer) 0 ∧
      (applyMoveCore exSkipSt 0).1.sequence.length =
        (applyMoveCore exSkipSt 0).1.stonesPicked :=
  C4_skip_opponent_store.1 exSkipSt (applyMoveCore exSkipSt 0).2 0
    (applyMoveCore exSkipSt 0).1 rfl

/-! ### Claim C5: extra turn and turn transition -/

/-- C5: on every successful `applyMove`, `landedInStore` holds exactly
when the last stone landed in the mover's own store, `extraTurn` equals
`landedInStore`, and the turn passes to the other side exactly when the
move neither landed in the mover's store nor ended the game; concretely,
playing pit 2 from the default board lands in the store, keeps the turn,
and puts one stone in slot 6. -/
theorem C5_turn_transition :
    (∀ (st st2 : EngineState) (pit : ℕ) (ms : MoveSummary),
      applyMove st pit = (Except.ok ms, st2) →
      ((ms.landedInStore = true) ↔ ms.lastPosition = (pitRange st.currentPlayer).store) ∧
        ms.extraTurn = ms.landedInStore ∧
        ms.gameOver = st2.gameOver ∧
        st2.currentPlayer =
          (if ms.landedInStore = false ∧ st2.gameOver = false then 1 - st.currentPlayer
           else st.currentPlayer)) ∧
    ((applyMoveCore exDefault 2).1.lastPosition = 6 ∧
      (applyMoveCore exDefault 2).1.extraTurn = true ∧
      (applyMoveCore exDefault 2).2.currentPlayer = 0 ∧
      (applyMoveCore exDefault 2).2.board.getD 6 0 = 1) := by
  constructor
  · intro st st2 pit ms h
    obtain ⟨_, hms, hst⟩ := applyMove_ok_elim h
    subst hms
    subst hst
    show ((isOwnStore (sowOf st pit).2.1 st.currentPlayer = true) ↔
        (sowOf st pit).2.1 = (pitRange st.currentPlayer).store) ∧
      isOwnStore (sowOf st pit).2.1 st.currentPlayer =
        isOwnStore (sowOf st pit).2.1 st.currentPlayer ∧
      endedAfter st pit = endedAfter st pit ∧
      (if !(isOwnStore (sowOf st pit).2.1 st.currentPlayer) && !(endedAfter st pit)
        then 1 - st.currentPlayer else st.currentPlayer) =
        (if isOwnStore (sowOf st pit).2.1 st.currentPlayer = false ∧
            endedAfter st pit = false
         then 1 - st.currentPlayer else st.currentPlayer)
    refine ⟨?_, rfl, rfl, ?_⟩
    · simp [isOwnStore]
    · cases hl : isOwnStore (sowOf st pit).2.1 st.currentPlayer <;>
        cases he : endedAfter st pit <;> simp
  · exact ⟨by decide, by decide, by decide, by decide⟩

/-- Witness for C5 at the default board, player 0 playing pit 2. -/
theorem C5_turn_transition_witness :
    (((applyMoveCore exDefault 2).1.landedInStore = true) ↔
      (applyMoveCore exDefault 2).1.lastPosition =
        (pitRange exDefault.currentPlayer).store) ∧
      (applyMoveCore exDefault 2).1.extraTurn = (applyMoveCore exDefault 2).1.landedInStore ∧
      (applyMoveCore exDefault 2).1.gameOver = (applyMoveCore exDefault 2).2.gameOver ∧
      (applyMoveCore exDefault 2).2.currentPlayer =
        (if (applyMoveCore exDefault 2).1.landedInStore = false ∧
            (applyMoveCore exDefault 2).2.gameOver = false
         then 1 - exDefault.currentPlayer else exDefault.currentPlayer) :=
  C5_turn_transition.1 exDefault (applyMoveCore exDefault 2).2 2
    (applyMoveCore exDefault 2).1 rfl

/-! ### Claim C2: the capture rule -/

theorem capture_indices {pos player : ℕ} (hp : player = 0 ∨ player = 1)
    (h1 : isOwnSide pos player = true) :
    (pitRange player).store < 14 ∧ pos < 14 ∧ 12 - pos < 14 ∧
      (pitRange player).store ≠ pos ∧ (pitRange player).store ≠ 12 - pos ∧
      pos ≠ 12 - pos := by
  rcases hp with rfl | rfl
  · have hb5 := ownSide_bounds_zero h1
    rw [pitRange_zero]
    exact ⟨show (6 : ℕ) < 14 by omega, by omega, by omega,
      show (6 : ℕ) ≠ pos by omega, show (6 : ℕ) ≠ 12 - pos by omega, by omega⟩
  · have hb7 := ownSide_bounds_one h1
    rw [pitRange_one]
    exact ⟨show (13 : ℕ) < 14 by omega, by omega, by omega,
      show (13 : ℕ) ≠ pos by omega, show (13 : ℕ) ≠ 12 - pos by omega, by omega⟩

theorem postCapture_board_length {st : EngineState} {pit : ℕ}
    (hv : isValidMove st pit st.currentPlayer = true)
    (hlen : st.board.length = 14) : (postCapture st pit).2.length = 14 := by
  have hp := valid_player hv
  have hs_len : (sowOf st pit).2.2.length = 14 := by
    unfold sowOf
    rw [sow_board_length, List.length_set]
    exact hlen
  unfold postCapture
  by_cases hls : isOwnStore (sowOf st pit).2.1 st.currentPlayer = true
  · rw [if_pos hls]; exact hs_len
  · rw [if_neg hls]
    exact (tryCapture_preserves (sowOf st pit).2.1 hp hs_len).2

/-- C2: on every successful `applyMove` whose last stone did not land in
the mover's store, the summary's capture field is exactly the result of
`tryCapture` on the post-sowing board; a capture happens iff the last
stone landed in the mover's own pit range, that pit holds exactly one
stone after the drop, and the opposite pit is non-empty; on capture, the
captured count is the opposite pit's stones plus one, the mover's store
grows by that amount, and both pits are zeroed; a landing pit holding at
least two stones never captures. -/
theorem C2_capture_rule :
    ∀ (st st2 : EngineState) (pit : ℕ) (ms : MoveSummary),
      st.board.length = 14 → applyMove st pit = (Except.ok ms, st2) →
      ms.landedInStore = false →
      (ms.capture =
        (tryCapture (sowOf st pit).2.2 (sowOf st pit).2.1 st.currentPlayer).1) ∧
      (ms.capture.isSome = true ↔
        (isOwnSide (sowOf st pit).2.1 st.currentPlayer = true ∧
          (sowOf st pit).2.2.getD (sowOf st pit).2.1 0 = 1 ∧
          0 < (sowOf st pit).2.2.getD (12 - (sowOf st pit).2.1) 0)) ∧
      (∀ c : Capture, ms.capture = some c →
        c.pit = (sowOf st pit).2.1 ∧ c.opposite = 12 - (sowOf st pit).2.1 ∧
        c.store = (pitRange st.currentPlayer).store ∧
        c.captured = (sowOf st pit).2.2.getD (12 - (sowOf st pit).2.1) 0 + 1 ∧
        (postCapture st pit).2.getD (pitRange st.currentPlayer).store 0 =
          (sowOf st pit).2.2.getD (pitRange st.currentPlayer).store 0 + c.captured ∧
        (postCapture st pit).2.getD (sowOf st pit).2.1 0 = 0 ∧
        (postCapture st pit).2.getD (12 - (sowOf st pit).2.1) 0 = 0) ∧
      (2 ≤ (sowOf st pit).2.2.getD (sowOf st pit).2.1 0 → ms.capture = none) := by
  intro st st2 pit ms hlen h hns
  obtain ⟨hv, hms, _⟩ := applyMove_ok_elim h
  have hp := valid_player hv
  have hs_len : (sowOf st pit).2.2.length = 14 := by
    unfold sowOf
    rw [sow_board_length, List.length_set]
    exact hlen
  subst hms
  have hnsb : isOwnStore (sowOf st pit).2.1 st.currentPlayer = false := hns
  have hpc : postCapture st pit =
      tryCapture (sowOf st pit).2.2 (sowOf st pit).2.1 st.currentPlayer := by
    unfold postCapture
    rw [if_neg (by simp [hnsb])]
  have hcap : (applyMoveCore st pit).1.capture =
      (tryCapture (sowOf st pit).2.2 (sowOf st pit).2.1 st.currentPlayer).1 := by
    show (postCapture st pit).1 = _
    rw [hpc]
  refine ⟨hcap, ?_, ?_, ?_⟩
  · rw [hcap]
    by_cases hc : isOwnSide (sowOf st pit).2.1 st.currentPlayer = true ∧
        (sowOf st pit).2.2.getD (sowOf st pit).2.1 0 = 1 ∧
        0 < (sowOf st pit).2.2.getD (12 - (sowOf st pit).2.1) 0
    · rw [tryCapture_pos hc.1 hc.2.1 hc.2.2]
      simp only [Option.isSome_some, true_iff]
      exact hc
    · rw [tryCapture_neg hc]
      simp only [Option.isSome_none, Bool.false_eq_true, false_iff]
      exact hc
  · intro c hsome
    rw [hcap] at hsome
    by_cases hc : isOwnSide (sowOf st pit).2.1 st.currentPlayer = true ∧
        (sowOf st pit).2.2.getD (sowOf st pit).2.1 0 = 1 ∧
        0 < (sowOf st pit).2.2.getD (12 - (sowOf st pit).2.1) 0
    · obtain ⟨h1, h2, h3⟩ := hc
      rw [tryCapture_pos h1 h2 h3] at hsome
      obtain ⟨hstlt, hposlt, hopplt, hne1, hne2, hne3⟩ := capture_indices hp h1
      have hc' := Option.some.inj hsome
      subst hc'
      rw [hpc, tryCapture_pos h1 h2 h3]
      refine ⟨rfl, rfl, rfl, rfl, ?_, ?_, ?_⟩
      · dsimp only
        rw [getD_set_ne _ (Ne.symm hne2), getD_set_ne _ (Ne.symm hne1),
          getD_set_self _ (by omega)]
      · dsimp only
        rw [getD_set_ne _ (Ne.symm hne3), getD_set_self _ (by rw [List.length_set]; omega)]
      · dsimp only
        rw [getD_set_self _ (by rw [List.length_set, List.length_set]; omega)]
    · rw [tryCapture_neg hc] at hsome
      exact absurd hsome (by simp)
  · intro h2
    rw [hcap, tryCapture_neg (by rintro ⟨_, heq, _⟩; omega)]

/-- Witness for C2 at the capture-test board, player 0 playing pit 3
(the stone lands in pit 4, capturing pit 8's three stones plus itself). -/
theorem C2_capture_rule_witness :
    exCaptureSt.board.length = 14 ∧
      (applyMoveCore exCaptureSt 3).1.landedInStore = false ∧
      ((applyMoveCore exCaptureSt 3).1.capture =
        (tryCapture (sowOf exCaptureSt 3).2.2 (sowOf exCaptureSt 3).2.1
          exCaptureSt.currentPlayer).1) ∧
      ((applyMoveCore exCaptureSt 3).1.capture.isSome = true ↔
        (isOwnSide (sowOf exCaptureSt 3).2.1 exCaptureSt.currentPlayer = true ∧
          (sowOf exCaptureSt 3).2.2.getD (sowOf exCaptureSt 3).2.1 0 = 1 ∧
          0 < (sowOf exCaptureSt 3).2.2.getD (12 - (sowOf exCaptureSt 3).2.1) 0)) ∧
      ((⟨4, 8, 6, 4⟩ : Capture).captured =
        (sowOf exCaptureSt 3).2.2.getD (12 - (sowOf exCaptureSt 3).2.1) 0 + 1 ∧
        (postCapture exCaptureSt 3).2.getD (pitRange exCaptureSt.currentPlayer).store 0 =
          (sowOf exCaptureSt 3).2.2.getD (pitRange exCaptureSt.currentPlayer).store 0 +
            (⟨4, 8, 6, 4⟩ : Capture).captured ∧
        (postCapture exCaptureSt 3).2.getD (sowOf exCaptureSt 3).2.1 0 = 0 ∧
        (postCapture exCaptureSt 3).2.getD (12 - (sowOf exCaptureSt 3).2.1) 0 = 0) := by
  have hmain := C2_capture_rule exCaptureSt (applyMoveCore exCaptureSt 3).2 3
    (applyMoveCore exCaptureSt 3).1 (by decide) rfl (by decide)
  have hfields := hmain.2.2.1 ⟨4, 8, 6, 4⟩ (by decide)
  exact ⟨by decide, by decide, hmain.1, hmain.2.1,
    hfields.2.2.2.1, hfields.2.2.2.2.1, hfields.2.2.2.2.2.1, hfields.2.2.2.2.2.2⟩

/-! ### Claim C3: the game-end sweep -/

/-- C3: on every successful `applyMove`, if either side's pits all sum
to zero after sowing and capture, then the move's sweep record is
present, the game is marked over, each side's remaining pit stones are
added to its own store, and all twelve pits end at zero — regardless of
extra turn or capture; concretely, from
`[0,0,0,0,0,1,20,0,0,0,0,0,5,15]` with player 0 playing pit 5 (an
extra-turn move), the game ends with stores 21 and 20 and all pits
empty. -/
theorem C3_game_end_sweep :
    (∀ (st st2 : EngineState) (pit : ℕ) (ms : MoveSummary),
      st.board.length = 14 → applyMove st pit = (Except.ok ms, st2) →
      (isSideEmpty (postCapture st pit).2 0 = true ∨
        isSideEmpty (postCapture st pit).2 1 = true) →
      ms.sweep.isSome = true ∧ st2.gameOver = true ∧ ms.gameOver = true ∧
        st2.board.getD 6 0 =
          (postCapture st pit).2.getD 6 0 + sumRange (postCapture st pit).2 0 5 ∧
        st2.board.getD 13 0 =
          (postCapture st pit).2.getD 13 0 + sumRange (postCapture st pit).2 7 12 ∧
        (∀ i : ℕ, (i ≤ 5 ∨ (7 ≤ i ∧ i ≤ 12)) → st2.board.getD i 0 = 0)) ∧
    ((applyMoveCore exSweepSt 5).2.gameOver = true ∧
      (applyMoveCore exSweepSt 5).1.extraTurn = true ∧
      (applyMoveCore exSweepSt 5).2.board =
        [0, 0, 0, 0, 0, 0, 21, 0, 0, 0, 0, 0, 0, 20]) := by
  constructor
  · intro st st2 pit ms hlen h hside
    obtain ⟨hv, hms, hst⟩ := applyMove_ok_elim h
    have hend : endedAfter st pit = true := by
      unfold endedAfter
      rcases hside with hside | hside <;> rw [hside] <;> simp
    have hps : postSweep st pit =
        (some (collectRemainingStones (postCapture st pit).2).1,
         (collectRemainingStones (postCapture st pit).2).2) := by
      unfold postSweep
      rw [if_pos hend]
    have hblen := postCapture_board_length hv hlen
    obtain ⟨_, _, c6, c13, czero⟩ := collect_board hblen
    subst hms
    subst hst
    refine ⟨?_, ?_, ?_, ?_, ?_, ?_⟩
    · show (postSweep st pit).1.isSome = true
      rw [hps]
      rfl
    · show endedAfter st pit = true
      exact hend
    · show endedAfter st pit = true
      exact hend
    · show (postSweep st pit).2.getD 6 0 = _
      rw [hps]
      exact c6
    · show (postSweep st pit).2.getD 13 0 = _
      rw [hps]
      exact c13
    · intro i hi
      show (postSweep st pit).2.getD i 0 = 0
      rw [hps]
      exact czero i hi
  · exact ⟨by decide, by decide, by decide⟩

/-- Witness for C3 at the sweep-test board, player 0 playing pit 5. -/
theorem C3_game_end_sweep_witness :
    (applyMoveCore exSweepSt 5).1.sweep.isSome = true ∧
      (applyMoveCore exSweepSt 5).2.gameOver = true ∧
      (applyMoveCore exSweepSt 5).2.board.getD 6 0 =
        (postCapture exSweepSt 5).2.getD 6 0 + sumRange (postCapture exSweepSt 5).2 0 5 ∧
      (applyMoveCore exSweepSt 5).2.board.getD 13 0 =
        (postCapture exSweepSt 5).2.getD 13 0 + sumRange (postCapture exSweepSt 5).2 7 12 ∧
      (applyMoveCore exSweepSt 5).2.board.getD 12 0 = 0 := by
  have hmain := C3_game_end_sweep.1 exSweepSt (applyMoveCore exSweepSt 5).2 5
    (applyMoveCore exSweepSt 5).1 (by decide) rfl (Or.inl (by decide))
  exact ⟨hmain.1, hmain.2.1, hmain.2.2.2.1, hmain.2.2.2.2.1,
    hmain.2.2.2.2.2 12 (Or.inr ⟨by omega, by omega⟩)⟩

/-! ### Claim C6: applyMove error handling and atomicity -/

/-- C6: `applyMove` raises exactly when the game is over or the pit is
not a valid move for the current player, and a raising call leaves the
engine state untouched. -/
theorem C6_invalid_move_error :
    ∀ (st : EngineState) (pit : ℕ),
      ((∃ e, (applyMove st pit).1 = Except.error e) ↔
        (st.gameOver = true ∨ isValidMove st pit st.currentPlayer = false)) ∧
      (∀ e, (applyMove st pit).1 = Except.error e → (applyMove st pit).2 = st) := by
  intro st pit
  unfold applyMove
  by_cases hgo : st.gameOver
  · rw [if_pos hgo]
    exact ⟨⟨fun _ => Or.inl hgo, fun _ => ⟨_, rfl⟩⟩, fun _ _ => rfl⟩
  · rw [if_neg hgo]
    by_cases hvm : isValidMove st pit st.currentPlayer
    · rw [if_neg (by simp [hvm])]
      constructor
      · constructor
        · rintro ⟨e, he⟩
          exact absurd he (by simp)
        · rintro (hg | hv)
          · exact absurd hg (by simp [hgo])
          · exact absurd hv (by simp [hvm])
      · intro e he
        exact absurd he (by simp)
    · rw [if_pos (by simpa using hvm)]
      exact ⟨⟨fun _ => Or.inr (by simpa using hvm), fun _ => ⟨_, rfl⟩⟩, fun _ _ => rfl⟩

/-- Witness for C6: playing pit 7 as player 0 from the default board is
rejected and leaves the state unchanged. -/
theorem C6_invalid_move_error_witness :
    ((∃ e, (applyMove exDefault 7).1 = Except.error e) ↔
      (exDefault.gameOver = true ∨
        isValidMove exDefault 7 exDefault.currentPlayer = false)) ∧
      (applyMove exDefault 7).2 = exDefault :=
  ⟨(C6_invalid_move_error exDefault 7).1,
    (C6_invalid_move_error exDefault 7).2 "Invalid move" rfl⟩

/-! ### Claim C8: reset semantics (corrected) -/

/-- C8 counterexample: construct with board `replicate 14 1`, reset with
custom board `replicate 14 2`, then reset with no arguments — the engine
reinstates the board from the latest custom reset, not "the last board
supplied at construction" as the claim states. -/
theorem C8_reset_counterexample :
    (mkEngine (some (List.replicate 14 1)) 0).initialBoard = List.replicate 14 1 ∧
      (reset (reset (mkEngine (some (List.replicate 14 1)) 0)
          (some (List.replicate 14 2)) none) none none).board = List.replicate 14 2 ∧
      List.replicate 14 2 ≠ List.replicate 14 1 :=
  ⟨by decide, by decide, by decide⟩

/-- C8 (amended): `reset` clears `gameOver` unconditionally; with no
board it reinstates the engine's recorded initial board, which is set at
construction and updated whenever a custom board is supplied (to a
later `reset` as well, not only at construction); with no player it
falls back to the recorded starting player, or 0 when a custom board is
supplied in the same call; a fresh engine with no arguments records the
default 4-stones-per-pit layout. -/
theorem C8_reset_semantics :
    (∀ (st : EngineState) (board : Option (List ℕ)) (player : Option ℕ),
      (reset st board player).gameOver = false ∧
        (reset st board player).board = board.getD st.initialBoard ∧
        (reset st board player).initialBoard = board.getD st.initialBoard ∧
        (reset st board player).currentPlayer =
          (match player with
           | some p => p
           | none => if board.isSome then 0 else st.initialPlayer) ∧
        (reset st board player).initialPlayer = (reset st board player).currentPlayer) ∧
      (mkEngine none 0).initialBoard = INITIAL_BOARD ∧
      (mkEngine none 0).board = INITIAL_BOARD := by
  refine ⟨?_, rfl, rfl⟩
  intro st board player
  cases board <;> cases player <;> exact ⟨rfl, rfl, rfl, rfl, rfl⟩

/-! ### Evaluator totality -/

theorem simulateMove_ok {st : EngineState} {pit : ℕ}
    (hv : isValidMove st pit st.currentPlayer = true) :
    simulateMove st pit =
      (Except.ok (applyMoveCore (clone st) pit).1, (applyMoveCore (clone st) pit).2) := by
  unfold simulateMove
  exact applyMove_ok_of_valid hv

theorem oppReplyScore_isSome {player : ℕ} {simE : EngineState} {oppPit : ℕ}
    (hmem : oppPit ∈ getValidMoves simE (if player = 0 then 1 else 0)) :
    (oppReplyScore player simE oppPit).isSome = true := by
  have hopp01 : (if player = 0 then 1 else 0) = 0 ∨ (if player = 0 then 1 else 0) = 1 := by
    by_cases h : player = 0 <;> simp [h]
  have hvm : isValidMove simE oppPit (if player = 0 then 1 else 0) = true :=
    isValidMove_of_mem hopp01 hmem
  have hvm2 : isValidMove
      (withCurrentPlayer (clone simE) (if player = 0 then 1 else 0)) oppPit
      (withCurrentPlayer (clone simE) (if player = 0 then 1 else 0)).currentPlayer
        = true := hvm
  unfold oppReplyScore
  dsimp only
  rw [simulateMove_ok hvm2]
  rfl

theorem worstOpponentLoop_isSome {player : ℕ} {simE : EngineState} :
    ∀ (l : List ℕ) (acc : WithBot ℚ),
      (∀ p ∈ l, (oppReplyScore player simE p).isSome = true) →
      ∃ w, worstOpponentLoop player simE l acc = some w ∧ acc ≤ w ∧
        (∀ p ∈ l, ∀ s : ℚ, oppReplyScore player simE p = some s → (s : WithBot ℚ) ≤ w) := by
  intro l
  induction l with
  | nil =>
      intro acc _
      exact ⟨acc, rfl, le_refl _, by simp⟩
  | cons p0 rest ih =>
      intro acc hall
      obtain ⟨s0, hs0⟩ := Option.isSome_iff_exists.mp (hall p0 (by simp))
      obtain ⟨w, hw, hacc, hbound⟩ :=
        ih (if acc < (s0 : WithBot ℚ) then (s0 : WithBot ℚ) else acc)
          (fun p hp => hall p (by simp [hp]))
      have hstep : acc ≤ (if acc < (s0 : WithBot ℚ) then (s0 : WithBot ℚ) else acc) := by
        by_cases hlt : acc < (s0 : WithBot ℚ)
        · rw [if_pos hlt]; exact le_of_lt hlt
        · rw [if_neg hlt]
      have hsstep : (s0 : WithBot ℚ) ≤
          (if acc < (s0 : WithBot ℚ) then (s0 : WithBot ℚ) else acc) := by
        by_cases hlt : acc < (s0 : WithBot ℚ)
        · rw [if_pos hlt]
        · rw [if_neg hlt]; exact le_of_not_lt hlt
      refine ⟨w, ?_, le_trans hstep hacc, ?_⟩
      · simp only [worstOpponentLoop, hs0]
        exact hw
      · intro p hp s hs
        rcases List.mem_cons.mp hp with rfl | hp2
        · rw [hs0] at hs
          obtain rfl := Option.some.inj hs
          exact le_trans hsstep hacc
        · exact hbound p hp2 s hs

theorem evaluateMove_isSome {st : EngineState} {pit : ℕ}
    (hv : isValidMove st pit st.currentPlayer = true) :
    (evaluateMove st st.currentPlayer pit).isSome = true := by
  unfold evaluateMove
  rw [simulateMove_ok hv]
  dsimp only
  by_cases hgo : (applyMoveCore (clone st) pit).1.gameOver = true
  · rw [if_pos hgo]
    rfl
  · rw [if_neg hgo]
    by_cases hex : (applyMoveCore (clone st) pit).1.extraTurn = true
    · rw [if_pos hex]
      rfl
    · rw [if_neg hex]
      cases hom : getValidMoves (applyMoveCore (clone st) pit).2
          (if st.currentPlayer = 0 then 1 else 0) with
      | nil =>
          rfl
      | cons o orest =>
          dsimp only
          have hops : ∀ p ∈ (o :: orest),
              (oppReplyScore st.currentPlayer (applyMoveCore (clone st) pit).2 p).isSome
                = true := by
            intro p hp
            rw [← hom] at hp
            exact oppReplyScore_isSome hp
          obtain ⟨w, hw, _, hbound⟩ :=
            worstOpponentLoop_isSome (o :: orest) ⊥ hops
          rw [hw]
          obtain ⟨s0, hs0⟩ := Option.isSome_iff_exists.mp (hops o (by simp))
          have hwne : ¬(w = ⊥) := by
            intro hbot
            have := hbound o (by simp) s0 hs0
            rw [hbot] at this
            exact absurd (le_bot_iff.mp this) (WithBot.coe_ne_bot)
          dsimp only
          rw [if_neg hwne]
          rfl

/-! ### Claim C7: evaluator totality (corrected) -/

/-- C7 counterexample: on the well-formed default state (player 0 to
move, game not over), pit 7 is a valid move for player 1, yet
`evaluateMove` for player 1 raises (its internal simulation applies the
move as the engine's current player 0, which rejects pit 7). -/
theorem C7_evaluator_counterexample :
    isValidMove exDefault 7 1 = true ∧ exDefault.gameOver = false ∧
      exDefault.currentPlayer = 0 ∧ exDefault.board.length = 14 ∧
      evaluateMove exDefault 1 7 = none :=
  ⟨by decide, by decide, by decide, by decide, rfl⟩

/-- C7 (amended): for every engine state and every pit that is a valid
move for the state's current player, `evaluateMove` called with that
current player returns a number and never raises. -/
theorem C7_evaluator_totality :
    ∀ (st : EngineState) (pit : ℕ),
      isValidMove st pit st.currentPlayer = true →
      (evaluateMove st st.currentPlayer pit).isSome = true :=
  fun _ _ hv => evaluateMove_isSome hv

/-- Witness for C7: evaluating the full-lookahead move from pit 0 of the
default board. -/
theorem C7_evaluator_totality_witness :
    isValidMove exDefault 0 exDefault.currentPlayer = true ∧
      (evaluateMove exDefault exDefault.currentPlayer 0).isSome = true :=
  ⟨by decide, C7_evaluator_totality exDefault 0 (by decide)⟩

/-! ### Claim C9: best-move selection -/

theorem validMovesAux_pairwise (b : List ℕ) :
    ∀ (n start : ℕ), (validMovesAux b start n).Pairwise (· < ·) := by
  intro n
  induction n with
  | zero => intro start; simp [validMovesAux]
  | succ m ih =>
      intro start
      simp only [validMovesAux]
      rw [List.pairwise_append]
      refine ⟨?_, ih (start + 1), ?_⟩
      · split <;> simp
      · intro a ha c hc
        have hcb := mem_validMovesAux.mp hc
        split at ha <;> simp at ha
        subst ha
        omega

theorem getValidMoves_pairwise (st : EngineState) (player : ℕ) :
    (getValidMoves st player).Pairwise (· < ·) := by
  unfold getValidMoves
  split
  · simp
  · exact validMovesAux_pairwise ..

/-- Invariant of the best-move selection loop: it succeeds when every
candidate evaluates, the running best only grows, the final score bounds
every candidate's score, the best move changes only on strict
improvement, and every candidate inspected strictly before the final
best scored strictly below the final score. -/
theorem chooseLoop_spec (st : EngineState) (player : ℕ) :
    ∀ (l : List ℕ) (m : ℕ) (s : WithBot ℚ), l.Nodup → m ∉ l →
      (∀ p ∈ l, (evaluateMove st player p).isSome = true) →
      ∃ (m2 : ℕ) (s2 : WithBot ℚ),
        chooseLoop st player l m s = some (m2, s2) ∧
        ((m2 = m ∧ s2 = s) ∨
          (m2 ∈ l ∧ ∃ q : ℚ, evaluateMove st player m2 = some q ∧
            s2 = (q : WithBot ℚ) ∧ s < s2)) ∧
        s ≤ s2 ∧
        (∀ p ∈ l, ∀ q : ℚ, evaluateMove st player p = some q → (q : WithBot ℚ) ≤ s2) ∧
        (∀ l1 l2, l = l1 ++ l2 → m2 ∈ l2 →
          ∀ p ∈ l1, ∀ q : ℚ, evaluateMove st player p = some q → (q : WithBot ℚ) < s2) := by
  intro l
  induction l with
  | nil =>
      intro m s _ _ _
      refine ⟨m, s, rfl, Or.inl ⟨rfl, rfl⟩, le_refl _, by simp, ?_⟩
      intro l1 l2 hsplit hm2
      have hl2 : l2 = [] := (List.append_eq_nil.mp hsplit.symm).2
      rw [hl2] at hm2
      simp at hm2
  | cons pit rest ih =>
      intro m s hnd hmnotin hall
      obtain ⟨q0, hq0⟩ := Option.isSome_iff_exists.mp (hall pit (by simp))
      have hndr : rest.Nodup := (List.nodup_cons.mp hnd).2
      have hpitr : pit ∉ rest := (List.nodup_cons.mp hnd).1
      have hmr : m ∉ rest := fun hc => hmnotin (by simp [hc])
      have hallr : ∀ p ∈ rest, (evaluateMove st player p).isSome = true :=
        fun p hp => hall p (by simp [hp])
      by_cases himp : s < (q0 : WithBot ℚ)
      · obtain ⟨m2, s2, heq, hdisj, hle, hmax, hpre⟩ :=
          ih pit (q0 : WithBot ℚ) hndr hpitr hallr
        refine ⟨m2, s2, ?_, ?_, ?_, ?_, ?_⟩
        · simp only [chooseLoop, hq0]
          rw [if_pos himp]
          exact heq
        · rcases hdisj with ⟨rfl, rfl⟩ | ⟨hm2mem, q, hq, hs2, _⟩
          · exact Or.inr ⟨by simp, q0, hq0, rfl, himp⟩
          · exact Or.inr ⟨by simp [hm2mem], q, hq, hs2, lt_of_lt_of_le himp hle⟩
        · exact le_of_lt (lt_of_lt_of_le himp hle)
        · intro p hp q hq
          rcases List.mem_cons.mp hp with rfl | hp2
          · rw [hq0] at hq
            obtain rfl := Option.some.inj hq
            exact hle
          · exact hmax p hp2 q hq
        · intro l1 l2 hsplit hm2 p hp q hq
          cases l1 with
          | nil => simp at hp
          | cons x l1t =>
              rw [List.cons_append] at hsplit
              injection hsplit with hx hrest
              subst hx
              rcases List.mem_cons.mp hp with rfl | hpl1t
              · rw [hq0] at hq
                obtain rfl := Option.some.inj hq
                have hm2rest : m2 ∈ rest := by
                  rw [hrest]
                  exact List.mem_append_right _ hm2
                rcases hdisj with ⟨rfl, rfl⟩ | ⟨_, q2, _, _, hlt⟩
                · exact absurd hm2rest hpitr
                · exact hlt
              · exact hpre l1t l2 hrest hm2 p hpl1t q hq
      · obtain ⟨m2, s2, heq, hdisj, hle, hmax, hpre⟩ := ih m s hndr hmr hallr
        refine ⟨m2, s2, ?_, ?_, hle, ?_, ?_⟩
        · simp only [chooseLoop, hq0]
          rw [if_neg himp]
          exact heq
        · rcases hdisj with hl | ⟨hm2mem, hrest2⟩
          · exact Or.inl hl
          · exact Or.inr ⟨by simp [hm2mem], hrest2⟩
        · intro p hp q hq
          rcases List.mem_cons.mp hp with rfl | hp2
          · rw [hq0] at hq
            obtain rfl := Option.some.inj hq
            exact le_trans (not_lt.mp himp) hle
          · exact hmax p hp2 q hq
        · intro l1 l2 hsplit hm2 p hp q hq
          cases l1 with
          | nil => simp at hp
          | cons x l1t =>
              rw [List.cons_append] at hsplit
              injection hsplit with hx hrest
              subst hx
              have hm2rest : m2 ∈ rest := by
                rw [hrest]
                exact List.mem_append_right _ hm2
              have hstrict : s < s2 := by
                rcases hdisj with ⟨rfl, rfl⟩ | ⟨_, _, _, _, hlt⟩
                · exact absurd hm2rest hmr
                · exact hlt
              rcases List.mem_cons.mp hp with rfl | hpl1t
              · rw [hq0] at hq
                obtain rfl := Option.some.inj hq
                exact lt_of_le_of_lt (not_lt.mp himp) hstrict
              · exact hpre l1t l2 hrest hm2 p hpl1t q hq

/-- C9 counterexample: on the default state (current player 0), player 1
has six valid moves, yet `chooseBest` for player 1 raises (modelled as
`none`) instead of returning one of them, because every evaluation
simulates against current player 0. -/
theorem C9_chooseBest_counterexample :
    getValidMoves exDefault 1 ≠ [] ∧ chooseBestAIMove exDefault 1 = none :=
  ⟨by decide, rfl⟩

/-- C9 (amended): for every engine state and player equal to the engine's
current player (and 0 or 1, as in both call sites), `chooseBest` returns
null exactly when there are no valid moves; otherwise it returns, without
raising, a valid pit whose evaluation score is greatest, with ties broken
in favour of the lowest pit index. -/
theorem C9_chooseBest_correct :
    ∀ (st : EngineState) (player : ℕ),
      player = st.currentPlayer → (player = 0 ∨ player = 1) →
      ((chooseBestAIMove st player = some none ↔ getValidMoves st player = []) ∧
        (chooseBestAIMove st player).isSome = true ∧
        (∀ pit : ℕ, chooseBestAIMove st player = some (some pit) →
          isValidMove st pit player = true ∧
          ∃ q : ℚ, evaluateMove st player pit = some q ∧
            (∀ p2 ∈ getValidMoves st player, ∀ q2 : ℚ,
              evaluateMove st player p2 = some q2 → q2 ≤ q) ∧
            (∀ p2 ∈ getValidMoves st player, ∀ q2 : ℚ,
              evaluateMove st player p2 = some q2 → q2 = q → pit ≤ p2)) ∧
        (getValidMoves st player ≠ [] →
          ∃ pit : ℕ, chooseBestAIMove st player = some (some pit))) := by
  intro st player hpcur hp01
  subst hpcur
  cases hmv : getValidMoves st st.currentPlayer with
  | nil =>
      have hcb : chooseBestAIMove st st.currentPlayer = some none := by
        unfold chooseBestAIMove
        rw [hmv]
      refine ⟨by simp [hcb], by simp [hcb], ?_, fun hne => absurd rfl hne⟩
      intro pit hpit
      rw [hcb] at hpit
      simp at hpit
  | cons first rest =>
      have hvalid : ∀ p ∈ getValidMoves st st.currentPlayer,
          isValidMove st p st.currentPlayer = true :=
        fun p hp => isValidMove_of_mem hp01 hp
      have hall : ∀ p ∈ first :: rest, (evaluateMove st st.currentPlayer p).isSome = true := by
        intro p hp
        rw [← hmv] at hp
        exact evaluateMove_isSome (hvalid p hp)
      have hpw : (first :: rest).Pairwise (· < ·) := by
        rw [← hmv]
        exact getValidMoves_pairwise ..
      have hnd : (first :: rest).Nodup :=
        hpw.imp (fun hab => Nat.ne_of_lt hab)
      have hfirstnotin : first ∉ rest := (List.nodup_cons.mp hnd).1
      obtain ⟨q0, hq0⟩ := Option.isSome_iff_exists.mp (hall first (by simp))
      obtain ⟨m2, s2, heq, hdisj, hle, hmax, hpre⟩ :=
        chooseLoop_spec st st.currentPlayer rest first (q0 : WithBot ℚ)
          (List.nodup_cons.mp hnd).2 hfirstnotin (fun p hp => hall p (by simp [hp]))
      have hloop : chooseLoop st st.currentPlayer (first :: rest) first ⊥ =
          some (m2, s2) := by
        simp only [chooseLoop, hq0]
        rw [if_pos (WithBot.bot_lt_coe q0)]
        exact heq
      have hcb : chooseBestAIMove st st.currentPlayer = some (some m2) := by
        unfold chooseBestAIMove
        rw [hmv]
        dsimp only
        rw [hloop]
      have hm2mem : m2 ∈ first :: rest := by
        rcases hdisj with ⟨rfl, _⟩ | ⟨hmem, _⟩
        · simp
        · simp [hmem]
      have hs2q : ∃ q : ℚ, evaluateMove st st.currentPlayer m2 = some q ∧
          s2 = (q : WithBot ℚ) := by
        rcases hdisj with ⟨rfl, rfl⟩ | ⟨_, q, hq, hs2, _⟩
        · exact ⟨q0, hq0, rfl⟩
        · exact ⟨q, hq, hs2⟩
      obtain ⟨q, hq, hs2⟩ := hs2q
      refine ⟨?_, ?_, ?_, ?_⟩
      · rw [hcb]
        simp
      · rw [hcb]
        rfl
      · intro pit hpit
        rw [hcb] at hpit
        have hm2pit : m2 = pit := by simpa using hpit
        subst hm2pit
        refine ⟨hvalid m2 (by rw [hmv]; exact hm2mem), q, hq, ?_, ?_⟩
        · intro p2 hp2 q2 hq2
          have hb : (q2 : WithBot ℚ) ≤ s2 := by
            rcases List.mem_cons.mp hp2 with rfl | hp2r
            · rw [hq0] at hq2
              obtain rfl := Option.some.inj hq2
              exact hle
            · exact hmax p2 hp2r q2 hq2
          rw [hs2] at hb
          exact_mod_cast hb
        · intro p2 hp2 q2 hq2 hq2q
          by_contra hlt
          push_neg at hlt
          rcases List.mem_cons.mp hp2 with rfl | hp2r
          · rcases hdisj with ⟨rfl, _⟩ | ⟨hm2rest, q3, hq3, hs3, hstrict⟩
            · exact absurd hlt (lt_irrefl _)
            · rw [hq0] at hq2
              obtain rfl := Option.some.inj hq2
              rw [hs2, hq2q] at hstrict
              exact absurd hstrict (lt_irrefl _)
          · rcases hdisj with ⟨rfl, _⟩ | ⟨hm2rest, _, _, _, _⟩
            · have := (List.pairwise_cons.mp hpw).1 p2 hp2r
              omega
            · obtain ⟨l1, l2, hl12⟩ := List.append_of_mem hp2r
              have hpwrest : (l1 ++ p2 :: l2).Pairwise (· < ·) := by
                rw [← hl12]
                exact (List.pairwise_cons.mp hpw).2
              have hm2inl2 : m2 ∈ l2 := by
                have hm2r : m2 ∈ l1 ++ p2 :: l2 := by
                  rw [← hl12]
                  exact hm2rest
                rcases List.mem_append.mp hm2r with hml1 | hml2
                · have := (List.pairwise_append.mp hpwrest).2.2 m2 hml1 p2 (by simp)
                  omega
                · rcases List.mem_cons.mp hml2 with rfl | h2
                  · exact absurd hlt (lt_irrefl _)
                  · exact h2
              have hlt2 := hpre (l1 ++ [p2]) l2
                (by rw [hl12, List.append_assoc, List.singleton_append]) hm2inl2
                p2 (List.mem_append_right _ (by simp)) q2 hq2
              rw [hq2q, ← hs2] at hlt2
              exact absurd hlt2 (lt_irrefl _)
      · intro _
        exact ⟨m2, hcb⟩

/-- Witness for C9: applied to the default engine state for player 0. -/
theorem C9_chooseBest_correct_witness :
    exDefault.currentPlayer = 0 ∧
      ((chooseBestAIMove exDefault 0 = some none ↔ getValidMoves exDefault 0 = []) ∧
        (chooseBestAIMove exDefault 0).isSome = true ∧
        (∀ pit : ℕ, chooseBestAIMove exDefault 0 = some (some pit) →
          isValidMove exDefault pit 0 = true ∧
          ∃ q : ℚ, evaluateMove exDefault 0 pit = some q ∧
            (∀ p2 ∈ getValidMoves exDefault 0, ∀ q2 : ℚ,
              evaluateMove exDefault 0 p2 = some q2 → q2 ≤ q) ∧
            (∀ p2 ∈ getValidMoves exDefault 0, ∀ q2 : ℚ,
              evaluateMove exDefault 0 p2 = some q2 → q2 = q → pit ≤ p2)) ∧
        (getValidMoves exDefault 0 ≠ [] →
          ∃ pit : ℕ, chooseBestAIMove exDefault 0 = some (some pit))) :=
  ⟨rfl, C9_chooseBest_correct exDefault 0 rfl (Or.inl rfl)⟩

end Mancala
